import Mathlib

/- Verification development for the txstatsd statistics core.

   Shallow embedding of:
   - src/txstatsd/hashing.py            (ConsistentHashRing)
   - src/txstatsd/metrics/distinctmetric.py
       (SBoxHash, zeros, SlidingDistinctCounter, DistinctMetricReporter)
   - src/txstatsd/metrics/histogrammetric.py (HistogramMetricReporter)

   Modelling conventions:
   - Python floats (timestamps, metric values) are modelled as exact
     rationals; Python unbounded ints as Nat with explicit masking where
     the source masks.
   - External library primitives that the repository only calls
     (hashlib.md5 in compute_ring_position, math.sqrt in std_dev) are
     treated as uninterpreted function parameters.
   - Python exceptions are modelled with an explicit error type and
     Except-valued functions. -/

/-- Python exceptions raised by the modelled code paths. -/
inductive PyError
  | assertionError
  | zeroDivisionError
  | typeError
  | valueError
  deriving DecidableEq

deriving instance DecidableEq for Except

/-- A ring entry is the tuple `(position, node)` built in add_node:
position is the 32-bit unsigned integer from compute_ring_position,
node is the node identifier string. -/
abbrev RingEntry : Type := ℕ × String

/-- Python string < (code-point lexicographic) on character lists. -/
def charListLt : List Char → List Char → Bool
  | [], [] => false
  | [], _ :: _ => true
  | _ :: _, [] => false
  | c :: cs, d :: ds =>
    if c.toNat < d.toNat then true
    else if d.toNat < c.toNat then false
    else charListLt cs ds

/-- Python string comparison (strict, by code points). -/
def strLt (a b : String) : Bool := charListLt a.data b.data

/-- Python string `<=`. -/
def strLe (a b : String) : Prop := strLt a b = true ∨ a = b

instance strLe.instDecidable : ∀ a b : String, Decidable (strLe a b) :=
  fun a b => by unfold strLe; exact inferInstance

/-- Python tuple ordering `(p1, n1) <= (p2, n2)` on ring entries:
lexicographic with integer then string comparison. -/
def entryLe (a b : RingEntry) : Prop :=
  a.1 < b.1 ∨ (a.1 = b.1 ∧ strLe a.2 b.2)

instance entryLe.instDecidable : ∀ a b : RingEntry, Decidable (entryLe a b) :=
  fun a b => by unfold entryLe; exact inferInstance

/-- bisect.insort on the ring: insert entry `e` into the sorted list,
after any entries equal to it (insort is insort_right: it walks past
every entry `x` with `x <= e` and places `e` before the first `x > e`). -/
def insort (e : RingEntry) : List RingEntry → List RingEntry
  | [] => [e]
  | x :: xs => if entryLe x e then x :: insort e xs else e :: x :: xs

/-- State of hashing.py ConsistentHashRing: `ring` is the sorted entry
list, `nodes` the member set (a Python set of node ids), `replica_count`
the per-node virtual-node count (default 1024 in the source). -/
structure ConsistentHashRing where
  ring : List RingEntry
  nodes : Finset String
  replica_count : ℕ

/-- The replica key `"%s:%d" % (node, i)` used in add_node. -/
def replicaKey (node : String) (i : ℕ) : String :=
  node ++ ":" ++ toString i

/-- add_node: add `node` to the member set (Python set.add, idempotent)
and insort one entry per replica index.  `ringPos` stands for
compute_ring_position, i.e. the first 8 hex digits of the MD5 digest of
the key read as an unsigned integer; hashlib.md5 is an external library
primitive, so the position function is an uninterpreted parameter. -/
def ConsistentHashRing.add_node (ringPos : String → ℕ) (s : ConsistentHashRing)
    (node : String) : ConsistentHashRing :=
  { s with
    nodes := insert node s.nodes
    ring := (List.range s.replica_count).foldl
      (fun r i => insort (ringPos (replicaKey node i), node) r) s.ring }

/-- remove_node: discard `node` from the member set and rebuild the ring
keeping the entries whose node differs from it. -/
def ConsistentHashRing.remove_node (s : ConsistentHashRing)
    (node : String) : ConsistentHashRing :=
  { s with
    nodes := s.nodes.erase node
    ring := s.ring.filter (fun e => decide (e.2 ≠ node)) }

/-- The loop of bisect.bisect_left specialised to the search key
`(position, None)`: `entry < (p, None)` reduces to `entry.position < p`
because in Python 2 `None` precedes every string, so the second tuple
component never decides the comparison.  The while loop runs at most
`len(a)` times (the interval shrinks every iteration), so it is modelled
with that much structural fuel. -/
def bisectAux (a : List RingEntry) (p : ℕ) : ℕ → ℕ → ℕ → ℕ
  | 0, lo, _ => lo
  | fuel + 1, lo, hi =>
    if lo < hi then
      let mid := (lo + hi) / 2
      if (a.getD mid default).1 < p then bisectAux a p fuel (mid + 1) hi
      else bisectAux a p fuel lo mid
    else lo

/-- bisect.bisect_left(ring, (position, None)) over the whole list. -/
def bisectLeft (a : List RingEntry) (p : ℕ) : ℕ :=
  bisectAux a p a.length 0 a.length

/-- get_node: `assert self.ring` (an empty ring raises AssertionError),
then return the node of the entry at the wrapped bisect_left index. -/
def ConsistentHashRing.get_node (ringPos : String → ℕ) (s : ConsistentHashRing)
    (key : String) : Except PyError String :=
  if s.ring.isEmpty then .error .assertionError
  else
    let p := ringPos key
    let index := bisectLeft s.ring p % s.ring.length
    .ok ((s.ring.getD index default).2)

/-- The while loop of get_nodes: walk the ring forward from `index`,
collecting distinct node ids, while fewer than `memberCount` nodes are
collected and the walk has not reached `last`.  The loop body runs at
most `len(ring) - 1` times (after that many increments the index equals
`last`), so `len(ring)` fuel preserves the exact semantics. -/
def ringWalk (ring : List RingEntry) (memberCount last : ℕ) :
    ℕ → ℕ → List String → List String
  | 0, _, acc => acc
  | fuel + 1, index, acc =>
    if acc.length < memberCount ∧ index ≠ last then
      let next_node := (ring.getD index default).2
      ringWalk ring memberCount last fuel ((index + 1) % ring.length)
        (if next_node ∈ acc then acc else acc ++ [next_node])
    else acc

/-- get_nodes: no assertion here; on an empty ring the expression
`bisect.bisect_left(...) % len(self.ring)` divides by zero and raises
ZeroDivisionError.  Otherwise walk from the bisect index with
`last_index = (index - 1) % len(ring)` (Python modulo of the possibly
negative `index - 1`, hence `index + len - 1` here). -/
def ConsistentHashRing.get_nodes (ringPos : String → ℕ) (s : ConsistentHashRing)
    (key : String) : Except PyError (List String) :=
  let p := ringPos key
  if s.ring.length = 0 then .error .zeroDivisionError
  else
    let index := bisectLeft s.ring p % s.ring.length
    let last := (index + s.ring.length - 1) % s.ring.length
    .ok (ringWalk s.ring s.nodes.card last s.ring.length index [])

/-- A membership operation on the ring. -/
inductive RingOp
  | add (node : String)
  | remove (node : String)

/-- Apply one membership operation. -/
def applyOp (ringPos : String → ℕ) (s : ConsistentHashRing) :
    RingOp → ConsistentHashRing
  | .add n => ConsistentHashRing.add_node ringPos s n
  | .remove n => ConsistentHashRing.remove_node s n

/-- Apply a sequence of membership operations in order. -/
def applyOps (ringPos : String → ℕ) (s : ConsistentHashRing)
    (ops : List RingOp) : ConsistentHashRing :=
  ops.foldl (applyOp ringPos) s

/-- The ring as built by `__init__([], replica_count = R)`: empty ring,
empty member set. -/
def initRing (R : ℕ) : ConsistentHashRing :=
  ⟨[], ∅, R⟩

/-- Checks that every add in the sequence is for a node not currently
in the member set (tracking the member set through the operations). -/
def freshOpsB : Finset String → List RingOp → Bool
  | _, [] => true
  | ns, .add n :: rest => decide (n ∉ ns) && freshOpsB (insert n ns) rest
  | ns, .remove n :: rest => freshOpsB (ns.erase n) rest

/-- SBoxHash state: the 256-entry table of 32-bit values drawn at
construction time.  Inputs are byte strings, modelled as lists of byte
values (Python indexes the table with ord(c)). -/
structure SBoxHash where
  table : Fin 256 → ℕ

/-- SBoxHash.hash: fold `value = ((value XOR table[c]) * 3) & 0xFFFFFFFF`
over the input, starting from 0. -/
def SBoxHash.hash (t : SBoxHash) (data : List (Fin 256)) : ℕ :=
  data.foldl (fun value c => ((value ^^^ t.table c) * 3) % 2 ^ 32) 0

/-- The loop body of `zeros`: shifting right step by step; the loop runs
at most `n` times for input `n`, hence structural fuel `n`. -/
def zerosAux : ℕ → ℕ → ℕ
  | 0, _ => 0
  | fuel + 1, n =>
    if n = 0 then 0
    else if n % 2 = 1 then 0
    else zerosAux fuel (n / 2) + 1

/-- zeros(n): the number of zeros to the right of the binary
representation of n (trailing zero count; zeros 0 = 0, as the source
returns the count when the shifted value reaches 0). -/
def zeros (n : ℕ) : ℕ := zerosAux n n

/-- SlidingDistinctCounter state: `n_hashes` hash instances and the
`n_hashes x n_buckets` grid of last-touched timestamps (0 = never). -/
structure SlidingDistinctCounter where
  n_hashes : ℕ
  n_buckets : ℕ
  hashes : List SBoxHash
  buckets : List (List ℚ)

/-- The loop of `add`: for the i-th hash value, set
`buckets[i][min(n_buckets - 1, zeros(value))] = when`.  The generator
pairs hash instances with bucket rows positionally; rows beyond the
hashes (or hashes beyond the rows) cannot occur in well-formed states. -/
def addLoop (nB : ℕ) (when : ℚ) : List ℕ → List (List ℚ) → List (List ℚ)
  | [], rows => rows
  | _ :: _, [] => []
  | v :: vs, row :: rest =>
      row.set (min (nB - 1) (zeros v)) when :: addLoop nB when vs rest

/-- SlidingDistinctCounter.add(when, item). -/
def SlidingDistinctCounter.add (c : SlidingDistinctCounter) (when : ℚ)
    (item : List (Fin 256)) : SlidingDistinctCounter :=
  { c with buckets :=
      addLoop c.n_buckets when (c.hashes.map (fun h => h.hash item)) c.buckets }

/-- The inner loop of `distinct`: count leading buckets with timestamp
strictly greater than `since`, stopping at the first bucket that fails
(`if self.buckets[i][b] <= since: break`). -/
def leastZeroRun (since : ℚ) : List ℚ → ℕ
  | [] => 0
  | t :: ts => if t ≤ since then 0 else leastZeroRun since ts + 1

/-- The accumulated `total` of `distinct`: sum of the per-row leading-run
lengths over rows `i < n_hashes`, each row read over `b < n_buckets`. -/
def SlidingDistinctCounter.total (c : SlidingDistinctCounter) (since : ℚ) : ℕ :=
  ((List.range c.n_hashes).map
    (fun i => leastZeroRun since ((c.buckets.getD i []).take c.n_buckets))).sum

/-- The return expression `int((2 ** v) / 0.77351)` of `distinct`, with
`v = total / n_hashes`, in exact arithmetic.  `int` truncates toward
zero, and the value is positive, so the result is
`floor(2 ^ (p / q) / 0.77351)` with `p = total`, `q = n_hashes`.  For a
natural number `k`: `k <= 2 ^ (p / q) / (77351 / 100000)` iff
`k ^ q * 77351 ^ q <= 2 ^ p * 100000 ^ q`, and the floor is below
`2 ^ (p + 1)`, so the floor is the greatest such `k` up to that bound
(proved in `floorPow2DivPhi_eq_floor` below). -/
def floorPow2DivPhi (p q : ℕ) : ℕ :=
  Nat.findGreatest (fun k => k ^ q * 77351 ^ q ≤ 2 ^ p * 100000 ^ q) (2 ^ (p + 1))

/-- SlidingDistinctCounter.distinct(since). -/
def SlidingDistinctCounter.distinct (c : SlidingDistinctCounter)
    (since : ℚ) : ℕ :=
  floorPow2DivPhi (c.total since) c.n_hashes

/-- DistinctMetricReporter state.  `pfx` is the stored prefix (the
constructor appends "." to a non-empty prefix argument); `wall_time` is
the value the injected wall_time_func returns when flush reads the
clock. -/
structure DistinctMetricReporter where
  name : String
  pfx : String
  counter : SlidingDistinctCounter
  wall_time : ℚ

/-- count() = counter.distinct() with the default since = 0. -/
def DistinctMetricReporter.count (r : DistinctMetricReporter) : ℕ :=
  r.counter.distinct 0

/-- count_1min(now) = counter.distinct(now - 60). -/
def DistinctMetricReporter.count_1min (r : DistinctMetricReporter) (now : ℚ) : ℕ :=
  r.counter.distinct (now - 60)

/-- count_1hour(now) = counter.distinct(now - 60 * 60). -/
def DistinctMetricReporter.count_1hour (r : DistinctMetricReporter) (now : ℚ) : ℕ :=
  r.counter.distinct (now - 60 * 60)

/-- count_1day(now) = counter.distinct(now - 60 * 60 * 24). -/
def DistinctMetricReporter.count_1day (r : DistinctMetricReporter) (now : ℚ) : ℕ :=
  r.counter.distinct (now - 60 * 60 * 24)

/-- Insert into a key-sorted association list (keys are the metric name
suffixes, pairwise distinct, so sorted() compares only the keys). -/
def insertPairSorted (kv : String × ℕ) :
    List (String × ℕ) → List (String × ℕ)
  | [] => [kv]
  | x :: xs => if strLt kv.1 x.1 then kv :: x :: xs else x :: insertPairSorted kv xs

/-- sorted(items.iteritems()): sort the four (suffix, value) pairs by
suffix.  Python dict iteration order is unspecified, but sorted() makes
the result independent of it. -/
def sortPairs : List (String × ℕ) → List (String × ℕ)
  | [] => []
  | x :: xs => insertPairSorted x (sortPairs xs)

/-- DistinctMetricReporter.flush(interval, timestamp): read the clock,
build the four suffix/value pairs, sort them by suffix and prepend
`prefix + name` to each suffix.  `interval` is unused by the source. -/
def DistinctMetricReporter.flush (r : DistinctMetricReporter)
    (interval timestamp : ℚ) : List (String × ℕ × ℚ) :=
  let now := r.wall_time
  let items := [(".count", r.count), (".count_1min", r.count_1min now),
                (".count_1hour", r.count_1hour now),
                (".count_1day", r.count_1day now)]
  (sortPairs items).map (fun kv => (r.pfx ++ r.name ++ kv.1, kv.2, timestamp))

/-- HistogramMetricReporter state: running scalars plus the reservoir
sample contents as returned by sample.get_values().  `minVal`/`maxVal`
are None (none) until the first update; `varM`, `varS` are the Welford
pair `self.variance = [M, S]`, initialised to `[-1.0, 0.0]`.  The
reservoir implementations live outside this repository; only the value
list the histogram reads from them is modelled. -/
structure HistogramMetricReporter where
  count : ℕ
  minVal : Option ℚ
  maxVal : Option ℚ
  sum : ℚ
  varM : ℚ
  varS : ℚ
  sample : List ℚ
  pfx : String

/-- min(): `self._min if self.count > 0 else 0.0`. -/
def HistogramMetricReporter.min (h : HistogramMetricReporter) : Option ℚ :=
  if 0 < h.count then h.minVal else some 0

/-- max(): `self._max if self.count > 0 else 0.0`. -/
def HistogramMetricReporter.max (h : HistogramMetricReporter) : Option ℚ :=
  if 0 < h.count then h.maxVal else some 0

/-- mean(): `float(self._sum) / self.count if self.count > 0 else 0.0`. -/
def HistogramMetricReporter.mean (h : HistogramMetricReporter) : ℚ :=
  if 0 < h.count then h.sum / h.count else 0

/-- get_variance(): `0.0 if count <= 1 else S / (count - 1)`. -/
def HistogramMetricReporter.get_variance (h : HistogramMetricReporter) : ℚ :=
  if h.count ≤ 1 then 0 else h.varS / ((h.count : ℚ) - 1)

/-- std_dev(): `sqrt(get_variance()) if count > 0 else 0.0`.  math.sqrt
is an external library primitive, passed in as an uninterpreted
function. -/
def HistogramMetricReporter.std_dev (sqrtFn : ℚ → ℚ)
    (h : HistogramMetricReporter) : ℚ :=
  if 0 < h.count then sqrtFn (h.get_variance) else 0

/-- Ascending insertion for values.sort(). -/
def insertRat (a : ℚ) : List ℚ → List ℚ
  | [] => [a]
  | x :: xs => if a < x then a :: x :: xs else x :: insertRat a xs

/-- values.sort(): sort the sampled values ascending. -/
def sortRats : List ℚ → List ℚ
  | [] => []
  | x :: xs => insertRat x (sortRats xs)

/-- One percentile score over the sorted value list: `pos = p * (n + 1)`;
below 1 take the first value, at or above n take the last, otherwise
interpolate between the order statistics at `int(pos) - 1` and
`int(pos)` (int() truncates; pos is positive here so it is the floor).
The source indexes values[0] / values[-1] unguarded; reachable states
with count > 0 have a non-empty sample, out-of-range reads are modelled
with a 0 default. -/
def percScore (values : List ℚ) (p : ℚ) : ℚ :=
  let pos := p * (values.length + 1)
  if pos < 1 then values.getD 0 0
  else if (values.length : ℚ) ≤ pos then values.getD (values.length - 1) 0
  else
    let ip := (⌊pos⌋).toNat
    let lower := values.getD (ip - 1) 0
    let upper := values.getD ip 0
    lower + (pos - ⌊pos⌋) * (upper - lower)

/-- percentiles(*ps): zero scores when there is no data, otherwise the
interpolated scores over the sorted sample. -/
def HistogramMetricReporter.percentiles (h : HistogramMetricReporter)
    (ps : List ℚ) : List ℚ :=
  if 0 < h.count then ps.map (percScore (sortRats h.sample))
  else List.replicate ps.length 0

/-- scores[pos] += 1 for the histogram loop. -/
def bumpAt (l : List ℚ) (i : ℕ) : List ℚ :=
  l.set i (l.getD i 0 + 1)

/-- The tally loop of histogram(): each value goes to bin
`int((value - min) / range * n_bins)`, with an exact top-edge hit
clamped into the last bin. -/
def histLoop (nBins : ℕ) (minv range : ℚ) (values : List ℚ) : List ℚ :=
  values.foldl
    (fun scores v =>
      let rawPos := (⌊(v - minv) / range * nBins⌋).toNat
      bumpAt scores (if rawPos = nBins then rawPos - 1 else rawPos))
    (List.replicate nBins 0)

/-- histogram(): 10 zero buckets with no data; otherwise Sturges bin
count `ceil(1 + log2(count)) = Nat.clog 2 count + 1`, min/max of the
current sample (max() of an empty sequence raises ValueError), and the
tally loop, whose first division raises ZeroDivisionError whenever
`max_value - min_value` is zero. -/
def HistogramMetricReporter.histogram (h : HistogramMetricReporter) :
    Except PyError (List ℚ) :=
  if ¬ 0 < h.count then .ok (List.replicate 10 0)
  else
    match h.sample with
    | [] => .error .valueError
    | v :: vs =>
      let nBins := Nat.clog 2 h.count + 1
      let maxv := vs.foldl Max.max v
      let minv := vs.foldl Min.min v
      if maxv - minv = 0 then .error .zeroDivisionError
      else .ok (histLoop nBins minv (maxv - minv) (v :: vs))

/-- The `items` dict literal of report(): the ten suffix/value pairs.
The min()/max() values are unwrapped with a 0 default (they are numbers
in every reachable count > 0 state, and report fails before reading
them anyway). -/
def HistogramMetricReporter.reportItems (h : HistogramMetricReporter)
    (sqrtFn : ℚ → ℚ) : List (String × ℚ) :=
  let ps := h.percentiles [1/2, 3/4, 95/100, 98/100, 99/100, 999/1000]
  [(".min", (h.min).getD 0), (".max", (h.max).getD 0),
   (".mean", h.mean), (".stddev", h.std_dev sqrtFn),
   (".median", ps.getD 0 0), (".75percentile", ps.getD 1 0),
   (".95percentile", ps.getD 2 0), (".98percentile", ps.getD 3 0),
   (".99percentile", ps.getD 4 0), (".999percentile", ps.getD 5 0)]

/-- report(timestamp): the source iterates `items.itervalues()` - the
ten dict VALUES, which are bare numbers - and unpacks each as
`item, value`, which raises TypeError on the first element (the metric
body would additionally read the never-assigned `self.name`).  So the
loop errors for every state; the empty-items case (unreachable, the dict
literal has ten entries) would return []. -/
def HistogramMetricReporter.report (h : HistogramMetricReporter)
    (sqrtFn : ℚ → ℚ) (timestamp : ℚ) : Except PyError (List (String × ℚ × ℚ)) :=
  match (h.reportItems sqrtFn).map Prod.snd with
  | [] => .ok []
  | _ :: _ => .error .typeError

/- ===== Concrete states used by witnesses and counterexamples ===== -/

/-- A concrete position function for witness ring states (the invariant
and walk theorems hold for every position function). -/
def posZero : String → ℕ := fun _ => 0

/-- A concrete position function mapping a key to its length. -/
def posLen : String → ℕ := fun s => s.length

/-- A concrete two-entry sorted ring over nodes "a" and "b". -/
def ringAB : ConsistentHashRing := ⟨[(1, "a"), (3, "b")], {"a", "b"}, 1⟩

/-- A concrete one-entry ring over node "a". -/
def ringA : ConsistentHashRing := ⟨[(0, "a")], {"a"}, 1⟩

/-- A concrete empty ring. -/
def ringEmpty : ConsistentHashRing := ⟨[], ∅, 1⟩

/-- A concrete one-row, two-bucket sliding counter whose single bucket
row is [1, 0]: the leading run for since = 0 has length 1. -/
def sdc1 : SlidingDistinctCounter := ⟨1, 2, [⟨fun _ => 0⟩], [[1, 0]]⟩

/-- A concrete counter for the add frame witness: one hash instance with
constant table value 2, so hash([7]) = (0 xor 2) * 3 = 6 and zeros 6 = 1. -/
def sdc2 : SlidingDistinctCounter := ⟨1, 2, [⟨fun _ => 2⟩], [[0, 0]]⟩

/-- A concrete empty histogram reporter (state after clear()). -/
def hist0 : HistogramMetricReporter := ⟨0, none, none, 0, -1, 0, [], ""⟩

/-- A concrete histogram reporter state after a single update(5). -/
def hist1 : HistogramMetricReporter := ⟨1, some 5, some 5, 5, 5, 0, [5], ""⟩

/-- A concrete distinct-metric reporter over sdc1. -/
def rep1 : DistinctMetricReporter := ⟨"gorets", "stats.", sdc1, 100000⟩

/-- Boolean test that a ring entry belongs to `n`. -/
def nodeIs (n : String) : RingEntry → Bool := fun e => decide (e.2 = n)

/-- The reachable-state invariant of the ring: fixed replica count,
entries sorted by the (position, node) tuple order, no duplicate
entries, every node owning exactly replica_count entries when it is a
member (none otherwise), and total size |nodes| * replica_count. -/
def RingInv (R : ℕ) (s : ConsistentHashRing) : Prop :=
  s.replica_count = R ∧
  s.ring.Sorted entryLe ∧
  s.ring.Nodup ∧
  (∀ n : String, s.ring.countP (nodeIs n) = if n ∈ s.nodes then R else 0) ∧
  s.ring.length = s.nodes.card * R

/- ===== Order lemmas for the ring entry ordering ===== -/

theorem charListLt_irrefl : ∀ as : List Char, charListLt as as = false := by
  intro as
  induction as with
  | nil => rfl
  | cons c cs ih => simp [charListLt, ih]

theorem charListLt_trans : ∀ as bs cs : List Char,
    charListLt as bs = true → charListLt bs cs = true → charListLt as cs = true := by
  intro as
  induction as with
  | nil =>
    intro bs cs hab hbc
    cases bs with
    | nil => simp [charListLt] at hab
    | cons b bs' =>
      cases cs with
      | nil => simp [charListLt] at hbc
      | cons c cs' => simp [charListLt]
  | cons a as' ih =>
    intro bs cs hab hbc
    cases bs with
    | nil => simp [charListLt] at hab
    | cons b bs' =>
      cases cs with
      | nil => simp [charListLt] at hbc
      | cons c cs' =>
        simp only [charListLt] at hab hbc ⊢
        by_cases h1 : a.toNat < b.toNat
        · by_cases h2 : b.toNat < c.toNat
          · simp [show a.toNat < c.toNat by omega]
          · simp only [h2, if_false] at hbc
            by_cases h3 : c.toNat < b.toNat
            · simp [h3] at hbc
            · simp [show a.toNat < c.toNat by omega]
        · simp only [h1, if_false] at hab
          by_cases h4 : b.toNat < a.toNat
          · simp [h4] at hab
          · simp only [h4, if_false] at hab
            by_cases h2 : b.toNat < c.toNat
            · simp [show a.toNat < c.toNat by omega]
            · simp only [h2, if_false] at hbc
              by_cases h3 : c.toNat < b.toNat
              · simp [h3] at hbc
              · simp only [h3, if_false] at hbc
                simp only [show ¬ a.toNat < c.toNat by omega, if_false,
                  show ¬ c.toNat < a.toNat by omega]
                exact ih bs' cs' hab hbc

theorem charLt_eq_of_not (a b : Char) (h1 : ¬ a.toNat < b.toNat)
    (h2 : ¬ b.toNat < a.toNat) : a = b := by
  apply Char.eq_of_val_eq
  have h : a.toNat = b.toNat := by omega
  unfold Char.toNat at h
  exact UInt32.eq_of_toBitVec_eq (BitVec.eq_of_toNat_eq h)

theorem charListLt_total : ∀ as bs : List Char,
    charListLt as bs = true ∨ charListLt bs as = true ∨ as = bs := by
  intro as
  induction as with
  | nil =>
    intro bs
    cases bs with
    | nil => right; right; rfl
    | cons b bs' => left; simp [charListLt]
  | cons a as' ih =>
    intro bs
    cases bs with
    | nil => right; left; simp [charListLt]
    | cons b bs' =>
      by_cases h1 : a.toNat < b.toNat
      · left; simp [charListLt, h1]
      · by_cases h2 : b.toNat < a.toNat
        · right; left; simp [charListLt, h2, h1]
        · have hab : a = b := charLt_eq_of_not a b h1 h2
          subst hab
          rcases ih bs' with h | h | h
          · left; simp [charListLt, h1, h2, h]
          · right; left; simp [charListLt, h1, h2, h]
          · right; right; rw [h]

theorem strLe_total (a b : String) : strLe a b ∨ strLe b a := by
  rcases charListLt_total a.data b.data with h | h | h
  · left; left; exact h
  · right; left; exact h
  · left; right; exact String.ext h

theorem strLe_trans {a b c : String} (h1 : strLe a b) (h2 : strLe b c) :
    strLe a c := by
  rcases h1 with h1 | rfl
  · rcases h2 with h2 | rfl
    · left; exact charListLt_trans _ _ _ h1 h2
    · left; exact h1
  · exact h2

theorem entryLe_total (a b : RingEntry) : entryLe a b ∨ entryLe b a := by
  unfold entryLe
  rcases Nat.lt_trichotomy a.1 b.1 with h | h | h
  · left; left; exact h
  · rcases strLe_total a.2 b.2 with hs | hs
    · left; right; exact ⟨h, hs⟩
    · right; right; exact ⟨h.symm, hs⟩
  · right; left; exact h

theorem entryLe_trans {a b c : RingEntry} (h1 : entryLe a b) (h2 : entryLe b c) :
    entryLe a c := by
  unfold entryLe at *
  rcases h1 with h1 | ⟨h1e, h1s⟩
  · rcases h2 with h2 | ⟨h2e, _⟩
    · left; omega
    · left; omega
  · rcases h2 with h2 | ⟨h2e, h2s⟩
    · left; omega
    · right; exact ⟨h1e.trans h2e, strLe_trans h1s h2s⟩

theorem entryLe_of_not {a b : RingEntry} (h : ¬ entryLe a b) : entryLe b a := by
  rcases entryLe_total a b with h1 | h1
  · exact absurd h1 h
  · exact h1

/- ===== insort lemmas ===== -/

theorem insort_perm (e : RingEntry) :
    ∀ l : List RingEntry, List.Perm (insort e l) (e :: l) := by
  intro l
  induction l with
  | nil => rfl
  | cons x xs ih =>
    unfold insort
    by_cases h : entryLe x e
    · simp only [h, if_true]
      exact (ih.cons x).trans (List.Perm.swap e x xs)
    · simp [h]

theorem insort_length (e : RingEntry) (l : List RingEntry) :
    (insort e l).length = l.length + 1 := by
  simpa using (insort_perm e l).length_eq

theorem insort_mem {e x : RingEntry} {l : List RingEntry}
    (h : x ∈ insort e l) : x = e ∨ x ∈ l := by
  have := (insort_perm e l).mem_iff.mp h
  simpa using this

theorem insort_sorted (e : RingEntry) :
    ∀ l : List RingEntry, l.Sorted entryLe → (insort e l).Sorted entryLe := by
  intro l
  induction l with
  | nil => intro _; simp [insort, List.Sorted]
  | cons x xs ih =>
    intro hs
    rw [List.sorted_cons] at hs
    obtain ⟨hx, hxs⟩ := hs
    unfold insort
    by_cases h : entryLe x e
    · simp only [h, if_true]
      rw [List.sorted_cons]
      refine ⟨?_, ih hxs⟩
      intro b hb
      rcases insort_mem hb with rfl | hb
      · exact h
      · exact hx b hb
    · simp only [h, if_false]
      rw [List.sorted_cons]
      refine ⟨?_, ?_⟩
      · intro b hb
        have he := entryLe_of_not h
        rcases List.mem_cons.mp hb with rfl | hb
        · exact he
        · exact entryLe_trans he (hx b hb)
      · rw [List.sorted_cons]
        exact ⟨hx, hxs⟩

/- ===== Ring invariant preservation (C2 machinery) ===== -/

theorem foldl_insort_perm :
    ∀ (es : List RingEntry) (l : List RingEntry),
      List.Perm (es.foldl (fun r e => insort e r) l) (es ++ l) := by
  intro es
  induction es with
  | nil => intro l; simp
  | cons e es' ih =>
    intro l
    have h1 := ih (insort e l)
    have h2 : List.Perm (es' ++ insort e l) (es' ++ (e :: l)) :=
      List.Perm.append_left es' (insort_perm e l)
    have h3 : List.Perm (es' ++ (e :: l)) (e :: (es' ++ l)) := List.perm_middle
    simpa using (h1.trans h2).trans h3

theorem foldl_insort_sorted :
    ∀ (es : List RingEntry) (l : List RingEntry),
      l.Sorted entryLe → (es.foldl (fun r e => insort e r) l).Sorted entryLe := by
  intro es
  induction es with
  | nil => intro l h; simpa using h
  | cons e es' ih =>
    intro l h
    simpa using ih (insort e l) (insort_sorted e l h)

/-- The entries inserted for a node by add_node. -/
theorem add_node_ring_perm (ringPos : String → ℕ) (s : ConsistentHashRing)
    (n : String) :
    List.Perm (s.add_node ringPos n).ring
      (((List.range s.replica_count).map
        (fun i => (ringPos (replicaKey n i), n))) ++ s.ring) := by
  show List.Perm ((List.range s.replica_count).foldl
      (fun r i => insort (ringPos (replicaKey n i), n) r) s.ring) _
  rw [← List.foldl_map (fun i => (ringPos (replicaKey n i), n))
    (fun r e => insort e r)]
  exact foldl_insort_perm _ s.ring

theorem add_node_inv {ringPos : String → ℕ} {R : ℕ} {s : ConsistentHashRing}
    {n : String}
    (hinj : ∀ i j, i < R → j < R →
      ringPos (replicaKey n i) = ringPos (replicaKey n j) → i = j)
    (hinv : RingInv R s) (hfresh : n ∉ s.nodes) :
    RingInv R (s.add_node ringPos n) := by
  obtain ⟨hR, hsorted, hnodup, hcount, hlen⟩ := hinv
  have hperm := add_node_ring_perm ringPos s n
  rw [hR] at hperm
  set newE : List RingEntry :=
    (List.range R).map (fun i => (ringPos (replicaKey n i), n)) with hnewE
  have hnewlen : newE.length = R := by simp [hnewE]
  have hmemE : ∀ e ∈ newE, e.2 = n := by
    intro e he
    rw [hnewE] at he
    obtain ⟨i, _, rfl⟩ := List.mem_map.mp he
    rfl
  have hnone : ∀ e ∈ s.ring, e.2 ≠ n := by
    have h0 : s.ring.countP (nodeIs n) = 0 := by
      rw [hcount n, if_neg hfresh]
    intro e he
    have := List.countP_eq_zero.mp h0 e he
    simpa [nodeIs] using this
  have hnodes : (s.add_node ringPos n).nodes = insert n s.nodes := rfl
  refine ⟨hR, ?_, ?_, ?_, ?_⟩
  · show ((List.range s.replica_count).foldl
      (fun r i => insort (ringPos (replicaKey n i), n) r) s.ring).Sorted entryLe
    rw [← List.foldl_map (fun i => (ringPos (replicaKey n i), n))
      (fun r e => insort e r)]
    exact foldl_insort_sorted _ _ hsorted
  · rw [hperm.nodup_iff, List.nodup_append]
    refine ⟨?_, hnodup, ?_⟩
    · rw [hnewE]
      refine List.Nodup.map_on ?_ (List.nodup_range R)
      intro i hi j hj hij
      have h1 : ringPos (replicaKey n i) = ringPos (replicaKey n j) := by
        simpa using congrArg Prod.fst hij
      exact hinj i j (List.mem_range.mp hi) (List.mem_range.mp hj) h1
    · intro e he1 he2
      exact hnone e he2 (hmemE e he1)
  · intro m
    rw [hperm.countP_eq, List.countP_append, hnodes]
    by_cases hm : m = n
    · subst hm
      have h1 : newE.countP (nodeIs m) = newE.length := by
        rw [List.countP_eq_length]
        intro e he
        simp [nodeIs, hmemE e he]
      have h2 : s.ring.countP (nodeIs m) = 0 := by
        rw [hcount m, if_neg hfresh]
      rw [h1, h2, hnewlen, if_pos (Finset.mem_insert_self m s.nodes)]
      omega
    · have h1 : newE.countP (nodeIs m) = 0 := by
        rw [List.countP_eq_zero]
        intro e he
        simp [nodeIs, hmemE e he, hm, Ne.symm]
      rw [h1, hcount m]
      simp [Finset.mem_insert, hm]
  · rw [hperm.length_eq, List.length_append, hnewlen, hlen, hnodes,
      Finset.card_insert_of_not_mem hfresh, add_mul, one_mul]
    omega

theorem remove_node_inv {R : ℕ} {s : ConsistentHashRing} {n : String}
    (hinv : RingInv R s) : RingInv R (s.remove_node n) := by
  obtain ⟨hR, hsorted, hnodup, hcount, hlen⟩ := hinv
  have hring : (s.remove_node n).ring
      = s.ring.filter (fun e => decide (e.2 ≠ n)) := rfl
  have hnodes : (s.remove_node n).nodes = s.nodes.erase n := rfl
  refine ⟨hR, ?_, ?_, ?_, ?_⟩
  · rw [hring]
    exact List.Pairwise.sublist (List.filter_sublist s.ring) hsorted
  · rw [hring]
    exact hnodup.sublist (List.filter_sublist s.ring)
  · intro m
    rw [hring, List.countP_filter, hnodes]
    by_cases hm : m = n
    · subst hm
      have h0 : s.ring.countP (fun a => nodeIs m a && decide (a.2 ≠ m)) = 0 := by
        rw [List.countP_eq_zero]
        intro e _
        simp [nodeIs]
      rw [h0, if_neg (fun hc => (Finset.mem_erase.mp hc).1 rfl)]
    · have hsame : s.ring.countP (fun a => nodeIs m a && decide (a.2 ≠ n))
          = s.ring.countP (nodeIs m) := by
        induction s.ring with
        | nil => rfl
        | cons x xs ihx =>
          by_cases hx : x.2 = m
          · rw [List.countP_cons, List.countP_cons, ihx]
            simp [nodeIs, hx, hm]
          · rw [List.countP_cons, List.countP_cons, ihx]
            simp [nodeIs, hx]
      rw [hsame, hcount m]
      by_cases hmem : m ∈ s.nodes
      · rw [if_pos hmem, if_pos (Finset.mem_erase.mpr ⟨hm, hmem⟩)]
      · rw [if_neg hmem, if_neg (fun hc => hmem (Finset.mem_erase.mp hc).2)]
  · rw [hring, ← List.countP_eq_length_filter, hnodes]
    have hsplit := List.length_eq_countP_add_countP (nodeIs n) s.ring
    have hnot : s.ring.countP (fun a => decide (a.2 ≠ n))
        = s.ring.countP (fun a => ¬ nodeIs n a) := by
      apply List.countP_congr
      intro e _
      simp [nodeIs]
    rw [hnot]
    by_cases hmem : n ∈ s.nodes
    · have hcn : s.ring.countP (nodeIs n) = R := by rw [hcount n, if_pos hmem]
      have hcard : (s.nodes.erase n).card = s.nodes.card - 1 :=
        Finset.card_erase_of_mem hmem
      have hpos : 1 ≤ s.nodes.card := Finset.card_pos.mpr ⟨n, hmem⟩
      rw [hcard, Nat.sub_mul, one_mul, ← hlen]
      omega
    · have hcn : s.ring.countP (nodeIs n) = 0 := by rw [hcount n, if_neg hmem]
      rw [Finset.erase_eq_of_not_mem hmem, ← hlen]
      omega

theorem initRing_inv (R : ℕ) : RingInv R (initRing R) := by
  refine ⟨rfl, by simp [initRing, List.Sorted], by simp [initRing], ?_, by simp [initRing]⟩
  intro n
  simp [initRing]

theorem applyOps_inv (ringPos : String → ℕ) (R : ℕ)
    (hinj : ∀ n i j, i < R → j < R →
      ringPos (replicaKey n i) = ringPos (replicaKey n j) → i = j) :
    ∀ (ops : List RingOp) (s : ConsistentHashRing), RingInv R s →
      freshOpsB s.nodes ops = true → RingInv R (applyOps ringPos s ops) := by
  intro ops
  induction ops with
  | nil => intro s hinv _; simpa [applyOps] using hinv
  | cons op rest ih =>
    intro s hinv hfresh
    cases op with
    | add n =>
      rw [freshOpsB, Bool.and_eq_true] at hfresh
      obtain ⟨h1, h2⟩ := hfresh
      have hfr : n ∉ s.nodes := of_decide_eq_true h1
      have hstep := add_node_inv (hinj n) hinv hfr
      have : (s.add_node ringPos n).nodes = insert n s.nodes := rfl
      show RingInv R (applyOps ringPos (s.add_node ringPos n) rest)
      exact ih _ hstep (by rw [this]; exact h2)
    | remove n =>
      rw [freshOpsB] at hfresh
      have hstep := @remove_node_inv R s n hinv
      have : (s.remove_node n).nodes = s.nodes.erase n := rfl
      show RingInv R (applyOps ringPos (s.remove_node n) rest)
      exact ih _ hstep (by rw [this]; exact hfresh)

/- ===== bisect_left correctness (C3 machinery) ===== -/

theorem findIdx_eq_of_getD {α : Type} (d : α) (pr : α → Bool) :
    ∀ (l : List α) (k : ℕ), k ≤ l.length →
      (∀ i, i < k → pr (l.getD i d) = false) →
      (k < l.length → pr (l.getD k d) = true) →
      l.findIdx pr = k := by
  intro l
  induction l with
  | nil =>
    intro k hk _ _
    have hk0 : k = 0 := Nat.le_zero.mp (by simpa using hk)
    subst hk0
    rfl
  | cons x xs ih =>
    intro k hk hb ha
    cases k with
    | zero =>
      have hx : pr x = true := by
        have := ha (by simp)
        simpa using this
      simp [List.findIdx_cons, hx]
    | succ k' =>
      have hx : pr x = false := by
        have := hb 0 (Nat.succ_pos k')
        simpa using this
      rw [List.findIdx_cons, hx]
      simp only [cond_false]
      have : xs.findIdx pr = k' := by
        apply ih
        · simpa using hk
        · intro i hi
          have := hb (i + 1) (by omega)
          simpa using this
        · intro hlt
          have := ha (by simpa using hlt)
          simpa using this
      omega

theorem sorted_posMono {l : List RingEntry} (hs : l.Sorted entryLe) :
    ∀ i j, i ≤ j → j < l.length → (l.getD i default).1 ≤ (l.getD j default).1 := by
  intro i j hij hj
  rcases Nat.eq_or_lt_of_le hij with rfl | hlt
  · exact le_refl _
  · have hi : i < l.length := lt_trans hlt hj
    rw [List.getD_eq_getElem l default hi, List.getD_eq_getElem l default hj]
    have := List.pairwise_iff_getElem.mp hs i j hi hj hlt
    rcases this with h | ⟨h, _⟩
    · exact le_of_lt h
    · exact le_of_eq h

theorem bisectAux_spec {a : List RingEntry} {p : ℕ} (hs : a.Sorted entryLe) :
    ∀ (fuel lo hi : ℕ), hi - lo ≤ fuel → lo ≤ hi → hi ≤ a.length →
      (∀ i, i < lo → (a.getD i default).1 < p) →
      (∀ i, hi ≤ i → i < a.length → p ≤ (a.getD i default).1) →
      bisectAux a p fuel lo hi = a.findIdx (fun e => decide (p ≤ e.1)) := by
  intro fuel
  induction fuel with
  | zero =>
    intro lo hi hfuel hlohi hhi hlow hhigh
    have heq : lo = hi := by omega
    subst heq
    show lo = _
    symm
    apply findIdx_eq_of_getD default
    · omega
    · intro i hi2
      have := hlow i hi2
      simp only [decide_eq_false_iff_not]
      omega
    · intro hlt
      have := hhigh lo (le_refl lo) hlt
      simpa using this
  | succ fuel ih =>
    intro lo hi hfuel hlohi hhi hlow hhigh
    rw [bisectAux]
    by_cases hlt : lo < hi
    · rw [if_pos hlt]
      have hmidlo : lo ≤ (lo + hi) / 2 := by omega
      have hmidhi : (lo + hi) / 2 < hi := by omega
      by_cases hc : (a.getD ((lo + hi) / 2) default).1 < p
      · rw [if_pos hc]
        apply ih ((lo + hi) / 2 + 1) hi (by omega) (by omega) hhi
        · intro i hi2
          have hle : (a.getD i default).1 ≤ (a.getD ((lo + hi) / 2) default).1 :=
            sorted_posMono hs i ((lo + hi) / 2) (by omega) (by omega)
          omega
        · exact hhigh
      · rw [if_neg hc]
        apply ih lo ((lo + hi) / 2) (by omega) (by omega) (by omega) hlow
        intro i hi2 hi3
        have hle : (a.getD ((lo + hi) / 2) default).1 ≤ (a.getD i default).1 :=
          sorted_posMono hs ((lo + hi) / 2) i hi2 hi3
        omega
    · rw [if_neg hlt]
      have heq : lo = hi := by omega
      subst heq
      symm
      apply findIdx_eq_of_getD default
      · omega
      · intro i hi2
        have := hlow i hi2
        simp only [decide_eq_false_iff_not]
        omega
      · intro hlt2
        have := hhigh lo (le_refl lo) hlt2
        simpa using this

theorem bisectLeft_eq_findIdx {a : List RingEntry} {p : ℕ}
    (hs : a.Sorted entryLe) :
    bisectLeft a p = a.findIdx (fun e => decide (p ≤ e.1)) := by
  apply bisectAux_spec hs a.length 0 a.length (by omega) (by omega) (le_refl _)
  · intro i hi
    omega
  · intro i hi1 hi2
    omega

theorem find?_eq_of_findIdx_lt {α : Type} (d : α) (pr : α → Bool) :
    ∀ l : List α, l.findIdx pr < l.length →
      l.find? pr = some (l.getD (l.findIdx pr) d) := by
  intro l
  induction l with
  | nil => intro h; simp at h
  | cons x xs ih =>
    intro h
    by_cases hx : pr x = true
    · rw [List.find?_cons_of_pos xs hx]
      rw [List.findIdx_cons, hx]
      simp
    · have hx' : pr x = false := by simpa using hx
      rw [List.find?_cons_of_neg xs hx]
      rw [List.findIdx_cons, hx'] at h ⊢
      simp only [cond_false] at h ⊢
      rw [List.getD_cons_succ]
      exact ih (by simpa using h)

theorem find?_eq_none_of_findIdx_eq {α : Type} (pr : α → Bool) :
    ∀ l : List α, l.findIdx pr = l.length → l.find? pr = none := by
  intro l
  induction l with
  | nil => intro _; rfl
  | cons x xs ih =>
    intro h
    by_cases hx : pr x = true
    · rw [List.findIdx_cons, hx] at h
      simp at h
    · have hx' : pr x = false := by simpa using hx
      rw [List.find?_cons_of_neg xs hx]
      rw [List.findIdx_cons, hx'] at h
      simp only [cond_false, List.length_cons] at h
      exact ih (by omega)

theorem get_node_spec (ringPos : String → ℕ) (s : ConsistentHashRing)
    (key : String) (hs : s.ring.Sorted entryLe) (hne : s.ring ≠ []) :
    s.get_node ringPos key = .ok
      (match s.ring.find? (fun e => decide (ringPos key ≤ e.1)) with
       | some e => e.2
       | none => (s.ring.getD 0 default).2) := by
  unfold ConsistentHashRing.get_node
  rw [List.isEmpty_eq_false.mpr hne]
  simp only [Bool.false_eq_true, if_false]
  rw [bisectLeft_eq_findIdx hs]
  have hk := @List.findIdx_le_length _ (fun e => decide (ringPos key ≤ e.1))
    s.ring
  have hlen : 0 < s.ring.length := List.length_pos.mpr hne
  rcases Nat.lt_or_ge (s.ring.findIdx (fun e => decide (ringPos key ≤ e.1)))
      s.ring.length with hlt | hge
  · rw [find?_eq_of_findIdx_lt default _ _ hlt, Nat.mod_eq_of_lt hlt]
  · have heq : s.ring.findIdx (fun e => decide (ringPos key ≤ e.1))
        = s.ring.length := by omega
    rw [find?_eq_none_of_findIdx_eq _ _ heq, heq, Nat.mod_self]

/- ===== get_nodes walk lemmas (C4 machinery) ===== -/

theorem ringWalk_nodup_len (ring : List RingEntry) (mc last : ℕ) :
    ∀ (fuel idx : ℕ) (acc : List String), acc.Nodup →
      (ringWalk ring mc last fuel idx acc).Nodup ∧
      (ringWalk ring mc last fuel idx acc).length ≤ max acc.length mc := by
  intro fuel
  induction fuel with
  | zero => intro idx acc h; exact ⟨h, le_max_left _ _⟩
  | succ f ih =>
    intro idx acc h
    rw [ringWalk]
    by_cases hc : acc.length < mc ∧ idx ≠ last
    · rw [if_pos hc]
      by_cases hmem : (ring.getD idx default).2 ∈ acc
      · simp only [if_pos hmem]
        exact ih _ acc h
      · simp only [if_neg hmem]
        have hnd : (acc ++ [(ring.getD idx default).2]).Nodup := by
          rw [List.nodup_append]
          refine ⟨h, by simp, ?_⟩
          intro a ha hb
          simp only [List.mem_singleton] at hb
          subst hb
          exact hmem ha
        obtain ⟨h1, h2⟩ := ih ((idx + 1) % ring.length) _ hnd
        refine ⟨h1, ?_⟩
        have hlen' : (acc ++ [(ring.getD idx default).2]).length ≤ mc := by
          simp only [List.length_append, List.length_singleton]
          omega
        calc (ringWalk ring mc last f ((idx + 1) % ring.length)
              (acc ++ [(ring.getD idx default).2])).length
            ≤ max (acc ++ [(ring.getD idx default).2]).length mc := h2
          _ = mc := Nat.max_eq_right hlen'
          _ ≤ max acc.length mc := le_max_right _ _
    · rw [if_neg hc]
      exact ⟨h, le_max_left _ _⟩

theorem ringWalk_head (ring : List RingEntry) (mc last : ℕ) :
    ∀ (fuel idx : ℕ) (acc : List String), acc ≠ [] →
      (ringWalk ring mc last fuel idx acc).head? = acc.head? := by
  intro fuel
  induction fuel with
  | zero => intro idx acc _; rfl
  | succ f ih =>
    intro idx acc hne
    rw [ringWalk]
    by_cases hc : acc.length < mc ∧ idx ≠ last
    · rw [if_pos hc]
      by_cases hmem : (ring.getD idx default).2 ∈ acc
      · simp only [if_pos hmem]
        exact ih _ acc hne
      · simp only [if_neg hmem]
        rw [ih _ _ (by simp [hne])]
        cases acc with
        | nil => exact absurd rfl hne
        | cons a as => simp
    · rw [if_neg hc]

theorem get_nodes_spec (ringPos : String → ℕ) (s : ConsistentHashRing)
    (key : String) (h2 : 2 ≤ s.ring.length)
    (hcoh : ∀ e ∈ s.ring, e.2 ∈ s.nodes) :
    ∃ (l : List String) (n : String),
      s.get_nodes ringPos key = .ok l ∧
      s.get_node ringPos key = .ok n ∧
      l.Nodup ∧ l.length ≤ s.nodes.card ∧ l.head? = some n := by
  have hlen : 0 < s.ring.length := by omega
  have hne : s.ring ≠ [] := List.length_pos.mp hlen
  have hidxlt : bisectLeft s.ring (ringPos key) % s.ring.length
      < s.ring.length := Nat.mod_lt _ hlen
  set idx := bisectLeft s.ring (ringPos key) % s.ring.length with hidx
  set lst := (idx + s.ring.length - 1) % s.ring.length with hlst
  have hne2 : idx ≠ lst := by
    rcases Nat.eq_zero_or_pos idx with h0 | hpos
    · rw [hlst, h0]
      have hmod : (0 + s.ring.length - 1) % s.ring.length
          = 0 + s.ring.length - 1 := Nat.mod_eq_of_lt (by omega)
      omega
    · have heq : idx + s.ring.length - 1 = (idx - 1) + s.ring.length := by omega
      rw [hlst, heq, Nat.add_mod_right, Nat.mod_eq_of_lt (by omega)]
      omega
  have hmc : 0 < s.nodes.card := by
    obtain ⟨e, he⟩ := List.exists_mem_of_ne_nil s.ring hne
    exact Finset.card_pos.mpr ⟨e.2, hcoh e he⟩
  obtain ⟨f, hf⟩ : ∃ f, s.ring.length = f + 1 := ⟨s.ring.length - 1, by omega⟩
  have hstep : ringWalk s.ring s.nodes.card lst (f + 1) idx []
      = ringWalk s.ring s.nodes.card lst f ((idx + 1) % s.ring.length)
          [(s.ring.getD idx default).2] := by
    rw [ringWalk, if_pos ⟨by simpa using hmc, hne2⟩]
    simp
  refine ⟨ringWalk s.ring s.nodes.card lst s.ring.length idx [],
    (s.ring.getD idx default).2, ?_, ?_, ?_, ?_, ?_⟩
  · show s.get_nodes ringPos key = _
    unfold ConsistentHashRing.get_nodes
    rw [if_neg (by omega)]
  · show s.get_node ringPos key = _
    unfold ConsistentHashRing.get_node
    rw [List.isEmpty_eq_false.mpr hne]
    simp
  · rw [hf, hstep]
    exact (ringWalk_nodup_len s.ring s.nodes.card lst f _ _ (by simp)).1
  · rw [hf, hstep]
    have := (ringWalk_nodup_len s.ring s.nodes.card lst f
      ((idx + 1) % s.ring.length) [(s.ring.getD idx default).2] (by simp)).2
    calc (ringWalk s.ring s.nodes.card lst f ((idx + 1) % s.ring.length)
          [(s.ring.getD idx default).2]).length
        ≤ max ([(s.ring.getD idx default).2].length) s.nodes.card := this
      _ = s.nodes.card := by
          rw [List.length_singleton]
          exact Nat.max_eq_right hmc
  · rw [hf, hstep]
    rw [ringWalk_head s.ring s.nodes.card lst f _ _ (by simp)]
    rfl

/- ===== add frame lemma (C5 machinery) ===== -/

theorem addLoop_getD (nB : ℕ) (when : ℚ) :
    ∀ (vs : List ℕ) (rows : List (List ℚ)), vs.length = rows.length →
      (addLoop nB when vs rows).length = rows.length ∧
      ∀ i, i < rows.length →
        (addLoop nB when vs rows).getD i []
          = (rows.getD i []).set (min (nB - 1) (zeros (vs.getD i 0))) when := by
  intro vs
  induction vs with
  | nil =>
    intro rows hlen
    cases rows with
    | nil => exact ⟨rfl, by intro i hi; simp at hi⟩
    | cons r rest => simp at hlen
  | cons v vs' ih =>
    intro rows hlen
    cases rows with
    | nil => simp at hlen
    | cons row rest =>
      simp only [List.length_cons] at hlen
      obtain ⟨ihlen, ihget⟩ := ih rest (by omega)
      refine ⟨by simpa [addLoop] using ihlen, ?_⟩
      intro i hi
      cases i with
      | zero => simp [addLoop]
      | succ j =>
        simp only [addLoop, List.getD_cons_succ]
        exact ihget j (by simpa using hi)

/- ===== distinct() floor characterisation (C1 machinery) ===== -/

theorem floorPow2DivPhi_eq_floor (p q : ℕ) (hq : 0 < q) :
    (floorPow2DivPhi p q : ℤ)
      = ⌊(2 : ℝ) ^ ((p : ℝ) / (q : ℝ)) / 0.77351⌋ := by
  have hphi : (0.77351 : ℝ) = 77351 / 100000 := by norm_num
  set x : ℝ := (2 : ℝ) ^ ((p : ℝ) / (q : ℝ)) / 0.77351 with hxdef
  have hb : (0 : ℝ) < 2 ^ ((p : ℝ) / (q : ℝ)) :=
    Real.rpow_pos_of_pos (by norm_num) _
  have hx0 : 0 < x := by
    rw [hxdef]
    apply div_pos hb (by norm_num)
  have hqR : ((q : ℝ)) ≠ 0 := by
    simp only [ne_eq, Nat.cast_eq_zero]
    omega
  have hpowq : (2 ^ ((p : ℝ) / (q : ℝ))) ^ q = (2 : ℝ) ^ p := by
    rw [← Real.rpow_natCast (2 ^ ((p : ℝ) / (q : ℝ))) q,
      ← Real.rpow_mul (by norm_num : (0:ℝ) ≤ 2),
      div_mul_cancel₀ _ hqR, Real.rpow_natCast]
  have key : ∀ k : ℕ,
      ((k : ℝ) ≤ x ↔ k ^ q * 77351 ^ q ≤ 2 ^ p * 100000 ^ q) := by
    intro k
    rw [hxdef, le_div_iff₀ (by norm_num : (0:ℝ) < 0.77351)]
    rw [← pow_le_pow_iff_left₀ (by positivity) (le_of_lt hb) (by omega : q ≠ 0)]
    rw [hpowq, hphi, mul_pow, div_pow, ← mul_div_assoc]
    rw [div_le_iff₀ (by positivity)]
    constructor
    · intro h
      have := h
      rw [show ((k:ℝ) ^ q * 77351 ^ q) = (((k ^ q * 77351 ^ q : ℕ) : ℝ)) by
          push_cast; ring,
        show ((2:ℝ) ^ p * 100000 ^ q) = (((2 ^ p * 100000 ^ q : ℕ) : ℝ)) by
          push_cast; ring] at this
      exact_mod_cast this
    · intro h
      have : (((k ^ q * 77351 ^ q : ℕ) : ℝ)) ≤ (((2 ^ p * 100000 ^ q : ℕ) : ℝ)) := by
        exact_mod_cast h
      calc ((k:ℝ) ^ q * 77351 ^ q) = (((k ^ q * 77351 ^ q : ℕ) : ℝ)) := by
            push_cast; ring
        _ ≤ (((2 ^ p * 100000 ^ q : ℕ) : ℝ)) := this
        _ = (2:ℝ) ^ p * 100000 ^ q := by push_cast; ring
  have hfl0 : 0 ≤ ⌊x⌋ := Int.floor_nonneg.mpr (le_of_lt hx0)
  have hnx : ((⌊x⌋.toNat : ℕ) : ℝ) ≤ x := by
    have h1 : ((⌊x⌋.toNat : ℤ) : ℝ) = ((⌊x⌋ : ℤ) : ℝ) := by
      rw [Int.toNat_of_nonneg hfl0]
    push_cast at h1
    rw [h1]
    exact Int.floor_le x
  have hxlt : x < ((2 ^ (p + 1) : ℕ) : ℝ) := by
    have h1 : (2 : ℝ) ^ ((p : ℝ) / (q : ℝ)) ≤ (2 : ℝ) ^ (p : ℝ) := by
      apply Real.rpow_le_rpow_of_exponent_le (by norm_num)
      apply div_le_self (by positivity) (by exact_mod_cast hq)
    have h2 : (2 : ℝ) ^ ((p:ℝ)) = (2:ℝ) ^ p := Real.rpow_natCast 2 p
    have h3 : x ≤ (2:ℝ) ^ p / 0.77351 := by
      rw [hxdef]
      apply div_le_div_of_nonneg_right ?_ (by norm_num)
      · rw [← h2]; exact h1
    have h4 : (2:ℝ) ^ p / 0.77351 < (2:ℝ) ^ p * 2 := by
      rw [div_lt_iff₀ (by norm_num : (0:ℝ) < 0.77351)]
      have hp : (0:ℝ) < (2:ℝ) ^ p := by positivity
      nlinarith
    have h5 : (2:ℝ) ^ p * 2 = ((2 ^ (p + 1) : ℕ) : ℝ) := by
      push_cast
      ring
    linarith
  have hnlt : ⌊x⌋.toNat < 2 ^ (p + 1) := by
    by_contra hcon
    push_neg at hcon
    have : ((2 ^ (p + 1) : ℕ) : ℝ) ≤ ((⌊x⌋.toNat : ℕ) : ℝ) := by
      exact_mod_cast hcon
    linarith [lt_of_lt_of_le hxlt (le_trans this hnx)]
  have hmain : floorPow2DivPhi p q = ⌊x⌋.toNat := by
    rw [floorPow2DivPhi, Nat.findGreatest_eq_iff]
    refine ⟨le_of_lt hnlt, ?_, ?_⟩
    · intro _
      exact (key _).mp hnx
    · intro m hm _ hP
      have hmx : ((m : ℝ)) ≤ x := (key m).mpr hP
      have hmfl : (m : ℤ) ≤ ⌊x⌋ := Int.le_floor.mpr (by exact_mod_cast hmx)
      have := Int.toNat_le_toNat hmfl
      simp only [Int.toNat_natCast] at this
      omega
  rw [hmain, Int.toNat_of_nonneg hfl0]

/- ===== Remaining helper lemmas ===== -/

theorem getD_set_self {l : List ℚ} {i : ℕ} {a : ℚ} (h : i < l.length) :
    (l.set i a).getD i 0 = a := by
  rw [List.getD_eq_getElem _ _ (by simpa using h)]
  exact List.getElem_set_self _

theorem getD_set_ne {l : List ℚ} {i j : ℕ} {a : ℚ} (hne : i ≠ j)
    (hj : j < l.length) :
    (l.set i a).getD j 0 = l.getD j 0 := by
  rw [List.getD_eq_getElem _ _ (by simpa using hj), List.getD_eq_getElem _ _ hj]
  exact List.getElem_set_ne hne _

theorem foldl_max_const (v : ℚ) :
    ∀ vs : List ℚ, (∀ x ∈ vs, x = v) → vs.foldl Max.max v = v := by
  intro vs
  induction vs with
  | nil => intro _; rfl
  | cons x xs ih =>
    intro h
    have hx : x = v := h x (by simp)
    subst hx
    simp only [List.foldl_cons, max_self]
    exact ih (fun y hy => h y (by simp [hy]))

theorem foldl_min_const (v : ℚ) :
    ∀ vs : List ℚ, (∀ x ∈ vs, x = v) → vs.foldl Min.min v = v := by
  intro vs
  induction vs with
  | nil => intro _; rfl
  | cons x xs ih =>
    intro h
    have hx : x = v := h x (by simp)
    subst hx
    simp only [List.foldl_cons, min_self]
    exact ih (fun y hy => h y (by simp [hy]))

/- ===== Claim theorems ===== -/

/-- C1 (amended): for every SlidingDistinctCounter state and cutoff
`since`, distinct(since) returns the TRUNCATION (floor) of
2 ^ mean(R_i) / 0.77351 - not the rounding - where the mean is
total / n_hashes and R_i is the leading-run statistic computed by the
inner loop (count leading buckets with timestamp strictly above `since`,
stopping at the first failure). -/
theorem c1_distinct_floor (c : SlidingDistinctCounter) (since : ℚ)
    (hq : 0 < c.n_hashes) :
    (c.distinct since : ℤ)
      = ⌊(2 : ℝ) ^ ((c.total since : ℝ) / (c.n_hashes : ℝ)) / 0.77351⌋ :=
  floorPow2DivPhi_eq_floor (c.total since) c.n_hashes hq

/-- C1 witness: the floor characterisation evaluated on the concrete
one-row counter sdc1. -/
theorem c1_distinct_floor_witness :
    (sdc1.distinct 0 : ℤ)
      = ⌊(2 : ℝ) ^ ((sdc1.total 0 : ℝ) / (sdc1.n_hashes : ℝ)) / 0.77351⌋ :=
  c1_distinct_floor sdc1 0 (by decide)

/-- C1 counterexample: on sdc1 (one hash row, leading run length 1, so
mean run length 1) the claimed round(2 ^ 1 / 0.77351) is 3, but
distinct returns int(2 ^ 1 / 0.77351) = 2: int() truncates, it does not
round. -/
theorem c1_distinct_round_counterexample :
    sdc1.n_hashes = 1 ∧ sdc1.total 0 = 1 ∧
    (sdc1.distinct 0 : ℤ) ≠ round ((2 : ℚ) ^ sdc1.total 0 / 0.77351) := by
  refine ⟨rfl, by decide, ?_⟩
  have h1 : sdc1.distinct 0 = 2 := by decide
  have h2 : sdc1.total 0 = 1 := by decide
  rw [h1, h2]
  norm_num [round_eq]

/-- C2 (amended): starting from the empty ring, after any sequence of
add_node/remove_node operations in which add_node is only ever called
for a node that is not currently a member (the source inserts
replica_count new entries unconditionally, so re-adding a member breaks
the size invariant), and assuming the position function does not
collide on the replica keys of a single node, the ring has exactly
|nodes| * replica_count entries, is sorted by the (position, node)
tuple order, and has no duplicate (position, node) entry. -/
theorem c2_ring_invariant (ringPos : String → ℕ) (R : ℕ) (ops : List RingOp)
    (hinj : ∀ n i j, i < R → j < R →
      ringPos (replicaKey n i) = ringPos (replicaKey n j) → i = j)
    (hfresh : freshOpsB ∅ ops = true) :
    (applyOps ringPos (initRing R) ops).ring.length
        = (applyOps ringPos (initRing R) ops).nodes.card * R ∧
    (applyOps ringPos (initRing R) ops).ring.Sorted entryLe ∧
    (applyOps ringPos (initRing R) ops).ring.Nodup := by
  have h := applyOps_inv ringPos R hinj ops (initRing R) (initRing_inv R) hfresh
  exact ⟨h.2.2.2.2, h.2.1, h.2.2.1⟩

/-- C2 witness: the invariant evaluated over the operation sequence
add "a", add "b", remove "a" with replica_count 1. -/
theorem c2_ring_invariant_witness :
    (applyOps posZero (initRing 1)
        [RingOp.add "a", RingOp.add "b", RingOp.remove "a"]).ring.length
      = (applyOps posZero (initRing 1)
        [RingOp.add "a", RingOp.add "b", RingOp.remove "a"]).nodes.card * 1 ∧
    (applyOps posZero (initRing 1)
        [RingOp.add "a", RingOp.add "b", RingOp.remove "a"]).ring.Sorted entryLe ∧
    (applyOps posZero (initRing 1)
        [RingOp.add "a", RingOp.add "b", RingOp.remove "a"]).ring.Nodup :=
  c2_ring_invariant posZero 1 _ (fun _ i j hi hj _ => by omega) (by decide)

/-- C2 counterexample: adding the same node twice (a sequence the claim
quantifies over) leaves |nodes| = 1 but 2 * replica_count ring entries,
and the two inserted entries are identical, so both the size clause and
the no-duplicate clause of the claim fail. -/
theorem c2_ring_invariant_counterexample :
    ¬ ((applyOps posZero (initRing 1) [RingOp.add "a", RingOp.add "a"]).ring.length
        = (applyOps posZero (initRing 1)
            [RingOp.add "a", RingOp.add "a"]).nodes.card * 1) ∧
    ¬ (applyOps posZero (initRing 1) [RingOp.add "a", RingOp.add "a"]).ring.Nodup := by
  constructor
  · decide
  · decide

/-- C9 (amended): on a ring with no entries, get_node fails with the
assertion (precondition-violation) error from `assert self.ring`, but
get_nodes has no such guard and instead fails with a ZeroDivisionError
when it reduces the bisect index modulo the zero ring length; both fail
for every key. -/
theorem c9_empty_ring (ringPos : String → ℕ) (s : ConsistentHashRing)
    (key : String) (h : s.ring = []) :
    s.get_node ringPos key = .error .assertionError ∧
    s.get_nodes ringPos key = .error .zeroDivisionError := by
  constructor
  · unfold ConsistentHashRing.get_node
    rw [h]
    rfl
  · unfold ConsistentHashRing.get_nodes
    rw [h]
    rfl

/-- C9 witness: both failures evaluated on the concrete empty ring. -/
theorem c9_empty_ring_witness :
    ringEmpty.get_node posZero "k" = .error .assertionError ∧
    ringEmpty.get_nodes posZero "k" = .error .zeroDivisionError :=
  c9_empty_ring posZero ringEmpty "k" rfl

/-- C9 counterexample: get_nodes on the empty ring raises
ZeroDivisionError, which is not the precondition-violation
(AssertionError) the claim asserts for both entry points. -/
theorem c9_empty_ring_counterexample :
    ringEmpty.get_nodes posZero "k" = .error .zeroDivisionError ∧
    PyError.zeroDivisionError ≠ PyError.assertionError := by
  constructor
  · decide
  · decide

/-- C10 (confirmed): with count > 0 and a reservoir sample holding only
equal values (non-empty, max = min), histogram() divides by the zero
value range and fails with ZeroDivisionError instead of returning a
bucket vector. -/
theorem c10_histogram_divzero (h : HistogramMetricReporter) (v : ℚ)
    (vs : List ℚ) (hc : 0 < h.count) (hs : h.sample = v :: vs)
    (heq : ∀ x ∈ h.sample, x = v) :
    h.histogram = .error .zeroDivisionError := by
  unfold HistogramMetricReporter.histogram
  rw [if_neg (by omega : ¬ ¬ 0 < h.count), hs]
  have hall : ∀ x ∈ vs, x = v := by
    intro x hx
    exact heq x (by simp [hs, hx])
  simp only [foldl_max_const v vs hall, foldl_min_const v vs hall, sub_self]
  rfl

/-- C10 witness: the failure evaluated on the concrete single-update
reporter hist1 (count 1, sample [5]). -/
theorem c10_histogram_divzero_witness :
    hist1.histogram = .error .zeroDivisionError :=
  c10_histogram_divzero hist1 5 [] (by decide) rfl (by decide)

/-- C3 (confirmed): on a non-empty (sorted, i.e. reachable) ring,
get_node returns the node of the first ring entry whose position is at
least the key position, wrapping to the entry at index 0 when no such
entry exists.  The key position function (first 8 hex digits of the MD5
digest, an external hashlib primitive) is the uninterpreted parameter
`ringPos`. -/
theorem c3_get_node (ringPos : String → ℕ) (s : ConsistentHashRing)
    (key : String) (hs : s.ring.Sorted entryLe) (hne : s.ring ≠ []) :
    s.get_node ringPos key = .ok
      (match s.ring.find? (fun e => decide (ringPos key ≤ e.1)) with
       | some e => e.2
       | none => (s.ring.getD 0 default).2) :=
  get_node_spec ringPos s key hs hne

/-- C3 witness: on the two-entry ring ringAB with key position 2, the
first entry with position at least 2 is (3, "b"). -/
theorem c3_get_node_witness : ringAB.get_node posLen "xy" = .ok "b" :=
  (c3_get_node posLen ringAB "xy" (by decide) (by decide)).trans (by decide)

/-- C4 (amended): on a ring with at least TWO entries (whose entry
nodes belong to the member set, as in every reachable state), get_nodes
returns a sequence with no duplicate node, of length at most the number
of member nodes, whose first element is the node get_node returns.  On
a single-entry ring the claim fails: the walk guard
`index != last_index` is false immediately and get_nodes returns the
empty list. -/
theorem c4_get_nodes (ringPos : String → ℕ) (s : ConsistentHashRing)
    (key : String) (h2 : 2 ≤ s.ring.length)
    (hcoh : ∀ e ∈ s.ring, e.2 ∈ s.nodes) :
    ∃ (l : List String) (n : String),
      s.get_nodes ringPos key = .ok l ∧
      s.get_node ringPos key = .ok n ∧
      l.Nodup ∧ l.length ≤ s.nodes.card ∧ l.head? = some n :=
  get_nodes_spec ringPos s key h2 hcoh

/-- C4 witness: the amended statement evaluated on the two-entry ring
ringAB. -/
theorem c4_get_nodes_witness :
    ∃ (l : List String) (n : String),
      ringAB.get_nodes posLen "xy" = .ok l ∧
      ringAB.get_node posLen "xy" = .ok n ∧
      l.Nodup ∧ l.length ≤ ringAB.nodes.card ∧ l.head? = some n :=
  c4_get_nodes posLen ringAB "xy" (by decide) (by decide)

/-- C4 counterexample: on the one-entry ring ringA, get_nodes returns
the empty list while get_node returns "a", so the first element of
get_nodes(key) does not equal get_node(key). -/
theorem c4_get_nodes_counterexample :
    ringA.get_nodes posZero "k" = .ok ([] : List String) ∧
    ringA.get_node posZero "k" = .ok "a" ∧
    ([] : List String).head? ≠ some "a" := by
  refine ⟨by decide, by decide, by decide⟩

/-- C5 (confirmed): add(when, item) writes `when` into exactly the
bucket [i][min(n_buckets - 1, zeros(hash_i(item)))] of each hash row i,
overwriting the previous timestamp, and leaves every other bucket of
the grid unchanged (stated over well-formed grids: one bucket row per
hash instance, rows of width n_buckets > 0). -/
theorem c5_add_frame (c : SlidingDistinctCounter) (when : ℚ)
    (item : List (Fin 256)) (hlen : c.buckets.length = c.hashes.length)
    (hrow : ∀ row ∈ c.buckets, row.length = c.n_buckets)
    (hnb : 0 < c.n_buckets) :
    (c.add when item).buckets.length = c.buckets.length ∧
    ∀ i, i < c.buckets.length → ∀ b, b < c.n_buckets →
      ((c.add when item).buckets.getD i []).getD b 0
        = if b = min (c.n_buckets - 1)
              (zeros ((c.hashes.getD i ⟨fun _ => 0⟩).hash item))
          then when
          else (c.buckets.getD i []).getD b 0 := by
  have hvs : (c.hashes.map (fun h => h.hash item)).length = c.buckets.length := by
    simp [hlen]
  obtain ⟨hL, hG⟩ := addLoop_getD c.n_buckets when
    (c.hashes.map (fun h => h.hash item)) c.buckets hvs
  refine ⟨hL, ?_⟩
  intro i hi b hb
  have hih : i < c.hashes.length := by omega
  have hv : (c.hashes.map (fun h => h.hash item)).getD i 0
      = (c.hashes.getD i ⟨fun _ => 0⟩).hash item := by
    rw [List.getD_eq_getElem _ _ (by simpa using hih), List.getElem_map,
      List.getD_eq_getElem _ _ hih]
  have hrowlen : (c.buckets.getD i []).length = c.n_buckets := by
    rw [List.getD_eq_getElem _ _ hi]
    exact hrow _ (List.getElem_mem hi)
  have hr : min (c.n_buckets - 1)
      (zeros ((c.hashes.getD i ⟨fun _ => 0⟩).hash item))
      < (c.buckets.getD i []).length := by
    rw [hrowlen]
    have := Nat.min_le_left (c.n_buckets - 1)
      (zeros ((c.hashes.getD i ⟨fun _ => 0⟩).hash item))
    omega
  have hadd : (c.add when item).buckets.getD i []
      = (c.buckets.getD i []).set
          (min (c.n_buckets - 1)
            (zeros ((c.hashes.getD i ⟨fun _ => 0⟩).hash item))) when := by
    show (addLoop c.n_buckets when (c.hashes.map (fun h => h.hash item))
        c.buckets).getD i [] = _
    rw [hG i hi, hv]
  rw [hadd]
  by_cases hbe : b = min (c.n_buckets - 1)
      (zeros ((c.hashes.getD i ⟨fun _ => 0⟩).hash item))
  · rw [if_pos hbe, hbe]
    exact getD_set_self hr
  · rw [if_neg hbe]
    exact getD_set_ne (fun hc2 => hbe hc2.symm) (by omega)

/-- C5 witness: the frame property evaluated on the concrete counter
sdc2, timestamp 5 and item [7]. -/
theorem c5_add_frame_witness :
    (sdc2.add 5 [(7 : Fin 256)]).buckets.length = sdc2.buckets.length ∧
    ∀ i, i < sdc2.buckets.length → ∀ b, b < sdc2.n_buckets →
      ((sdc2.add 5 [(7 : Fin 256)]).buckets.getD i []).getD b 0
        = if b = min (sdc2.n_buckets - 1)
              (zeros ((sdc2.hashes.getD i ⟨fun _ => 0⟩).hash [(7 : Fin 256)]))
          then 5
          else (sdc2.buckets.getD i []).getD b 0 :=
  c5_add_frame sdc2 5 [(7 : Fin 256)] (by decide) (by decide) (by decide)

/-- C6 (confirmed): with count = 0, min/max/mean/std_dev are 0.0,
percentiles is a vector of zeros of the right length, histogram is the
canonical 10-bucket zero histogram, and none of them errors; moreover
get_variance is 0.0 whenever count is at most 1. -/
theorem c6_hist_zero (h : HistogramMetricReporter) :
    (h.count = 0 →
      h.min = some 0 ∧ h.max = some 0 ∧ h.mean = 0 ∧
      (∀ sqrtFn : ℚ → ℚ, h.std_dev sqrtFn = 0) ∧
      (∀ ps : List ℚ, h.percentiles ps = List.replicate ps.length 0) ∧
      h.histogram = .ok (List.replicate 10 0)) ∧
    (h.count ≤ 1 → h.get_variance = 0) := by
  constructor
  · intro h0
    refine ⟨?_, ?_, ?_, ?_, ?_, ?_⟩
    · simp [HistogramMetricReporter.min, h0]
    · simp [HistogramMetricReporter.max, h0]
    · simp [HistogramMetricReporter.mean, h0]
    · intro sqrtFn
      simp [HistogramMetricReporter.std_dev, h0]
    · intro ps
      simp [HistogramMetricReporter.percentiles, h0]
    · simp [HistogramMetricReporter.histogram, h0]
  · intro h1
    simp [HistogramMetricReporter.get_variance, h1]

/-- C6 witness: the zero-data queries evaluated on the concrete cleared
reporter hist0. -/
theorem c6_hist_zero_witness :
    hist0.min = some 0 ∧ hist0.max = some 0 ∧ hist0.mean = 0 ∧
    hist0.std_dev (fun v => v) = 0 ∧
    hist0.percentiles [1/2, 3/4] = List.replicate 2 0 ∧
    hist0.histogram = .ok (List.replicate 10 0) ∧
    hist0.get_variance = 0 := by
  obtain ⟨hz, hv⟩ := c6_hist_zero hist0
  obtain ⟨a, b, c, d, e, f⟩ := hz rfl
  exact ⟨a, b, c, d _, by simpa using e [1/2, 3/4], f, hv (by decide)⟩

/-- C7 (code bug): report(timestamp) never returns the named triples.
The source iterates items.itervalues() - the bare numeric dict values -
and unpacks each one as `item, value`, raising TypeError on the first
iteration (and self.name is never assigned on this class), so report
fails for every state instead of producing the
.min/.max/.mean/.stddev/.median/percentile series. -/
theorem c7_report_raises (h : HistogramMetricReporter) (sqrtFn : ℚ → ℚ)
    (ts : ℚ) : h.report sqrtFn ts = .error .typeError := rfl

/-- C8 (confirmed): flush(interval, timestamp) returns exactly four
triples (prefix + name + suffix, value, timestamp) for the suffixes
.count, .count_1min, .count_1hour, .count_1day, ordered by the
lexicographic sort of the suffix (.count, .count_1day, .count_1hour,
.count_1min), with values distinct(0), distinct(now - 86400),
distinct(now - 3600) and distinct(now - 60) for the wall time `now`
read at the start of flush. -/
theorem c8_flush (r : DistinctMetricReporter) (interval timestamp : ℚ) :
    r.flush interval timestamp =
      [(r.pfx ++ r.name ++ ".count", r.counter.distinct 0, timestamp),
       (r.pfx ++ r.name ++ ".count_1day",
         r.counter.distinct (r.wall_time - 86400), timestamp),
       (r.pfx ++ r.name ++ ".count_1hour",
         r.counter.distinct (r.wall_time - 3600), timestamp),
       (r.pfx ++ r.name ++ ".count_1min",
         r.counter.distinct (r.wall_time - 60), timestamp)] := by
  have e1 : strLt ".count_1hour" ".count_1day" = false := rfl
  have e2 : strLt ".count_1min" ".count_1day" = false := rfl
  have e3 : strLt ".count_1min" ".count_1hour" = false := rfl
  have e4 : strLt ".count" ".count_1day" = true := rfl
  simp only [DistinctMetricReporter.flush, DistinctMetricReporter.count,
    DistinctMetricReporter.count_1min, DistinctMetricReporter.count_1hour,
    DistinctMetricReporter.count_1day, sortPairs, insertPairSorted,
    e1, e2, e3, e4, if_true, if_false, Bool.false_eq_true, List.map_cons,
    List.map_nil]
  norm_num
